import Mathlib

/-!
# VaultStamp backend: a shallow embedding of the registry logic

This file embeds the Motoko backend `src/backend/app.mo` (actor `Filevault`)
as pure Lean functions over an explicit state, together with a model of the
specified registry operations (`verifyFileByHash`, `findFilesWithSimilarPhash`)
whose implementation is not part of the sources, and proves or refutes the
specified properties.

Conventions of the embedding:
* Motoko `Text` is `String`, `Blob` is `List Nat` (one `Nat` per byte),
  `Principal` (the opaque caller identity) is `Nat`, `Time.now()` is an
  explicit `Int` parameter threaded into each call, and `Nat32` arithmetic
  is `Nat` arithmetic reduced `% 2^32`.
* The two `mo:map/Map` hash maps (`files : Map<Principal, UserFiles>` and
  `UserFiles = Map<Text, File>`) are embedded as association lists with
  unique keys; `mapPut` replaces the binding of an existing key in place
  and otherwise appends, `mapGet` returns the first binding, matching the
  observable insert/overwrite/lookup behaviour of the library map.
* Motoko's mutable aliasing (a user's map obtained from `files` is mutated
  in place) is made explicit: every operation returns the updated state.
-/

/-- Lookup of the binding of key `k` in an association list (first match). -/
def mapGet [DecidableEq K] (m : List (K × V)) (k : K) : Option V :=
  match m with
  | [] => none
  | (k', v) :: rest => if k' = k then some v else mapGet rest k

/-- Insert-or-overwrite of key `k`: replaces the first binding of `k` if
present, otherwise appends the new binding. -/
def mapPut [DecidableEq K] (m : List (K × V)) (k : K) (v : V) : List (K × V) :=
  match m with
  | [] => [(k, v)]
  | (k', v') :: rest => if k' = k then (k, v) :: rest else (k', v') :: mapPut rest k v

/-- Removal of the first binding of key `k`, if any. -/
def mapRemove [DecidableEq K] (m : List (K × V)) (k : K) : List (K × V) :=
  match m with
  | [] => []
  | (k', v') :: rest => if k' = k then rest else (k', v') :: mapRemove rest k

/-- Number of bindings of key `k` in an association list. -/
def countKey [DecidableEq K] (m : List (K × V)) (k : K) : Nat :=
  (m.filter (fun p => p.1 = k)).length

/-- Model of the Motoko runtime primitive `Blob.hash : Blob -> Nat32`
(used at `app.mo` line 61). The primitive is implemented in the Motoko
runtime system, outside this repository; it is modelled here as a concrete
pure `Nat32`-valued function of the bytes. The development relies only on
the facts that the source shares: the result depends on nothing but the
byte sequence and lies below `2^32`. -/
def blobHash (b : List Nat) : Nat :=
  b.foldl (fun h x => (h * 31 + x) % 4294967296) 0

/-- `Nat32.toText`: decimal rendering of the 32-bit hash value. -/
def natToText (n : Nat) : String := toString n

/-- The stored content hash of `app.mo` line 61:
`Nat32.toText(Blob.hash(content))`. -/
def hashOf (content : List Nat) : String := natToText (blobHash content)

/-- The `File` record type of `app.mo` lines 19-26. -/
structure File where
  name : String
  content : List Nat
  totalSize : Nat
  fileType : String
  hash : String
  timestamp : Int
deriving DecidableEq, Repr

/-- `UserFiles`: a user's catalog, mapping file names to `File` records. -/
abbrev UserFiles := List (String × File)

/-- The actor state: the `files` map from principals to their catalogs. -/
abbrev VaultState := List (Nat × UserFiles)

/-- `getUserFiles` of `app.mo` lines 35-47: returns the caller's catalog,
lazily creating (and storing) an empty one on first access. The returned
state reflects the possible insertion of the fresh empty catalog. -/
def getUserFiles (s : VaultState) (user : Nat) : UserFiles × VaultState :=
  match mapGet s user with
  | none => ([], mapPut s user [])
  | some uf => (uf, s)

/-- `checkFileExists` of `app.mo` lines 50-53. -/
def checkFileExists (s : VaultState) (caller : Nat) (name : String) :
    Bool × VaultState :=
  let r := getUserFiles s caller
  ((mapGet r.1 name).isSome, r.2)

/-- `uploadFile` of `app.mo` lines 56-96: computes the content hash, then
branches on whether the name already exists; both branches store a freshly
built record under the name. The Motoko method returns `async ()`, hence
the `Unit` result component. -/
def uploadFile (s : VaultState) (caller : Nat) (name : String)
    (content : List Nat) (fileType : String) (now : Int) : Unit × VaultState :=
  let r := getUserFiles s caller
  let userFiles := r.1
  let s' := r.2
  let hash := hashOf content
  match mapGet userFiles name with
  | none =>
      ((), mapPut s' caller (mapPut userFiles name
        { name := name, content := content, totalSize := content.length,
          fileType := fileType, hash := hash, timestamp := now }))
  | some _ =>
      ((), mapPut s' caller (mapPut userFiles name
        { name := name, content := content, totalSize := content.length,
          fileType := fileType, hash := hash, timestamp := now }))

/-- The metadata summary returned by `getFiles` (`app.mo` line 99). -/
structure FileMeta where
  name : String
  size : Nat
  fileType : String
  hash : String
  timestamp : Int
deriving DecidableEq, Repr

/-- `getFiles` of `app.mo` lines 99-115: the metadata of every record in
the caller's catalog. -/
def getFiles (s : VaultState) (caller : Nat) : List FileMeta × VaultState :=
  let r := getUserFiles s caller
  (r.1.map (fun p =>
    { name := p.2.name, size := p.2.totalSize, fileType := p.2.fileType,
      hash := p.2.hash, timestamp := p.2.timestamp }), r.2)

/-- `getFile` of `app.mo` lines 118-124. -/
def getFile (s : VaultState) (caller : Nat) (name : String) :
    Option (List Nat) × VaultState :=
  let r := getUserFiles s caller
  (match mapGet r.1 name with
   | none => none
   | some f => some f.content, r.2)

/-- `getFileType` of `app.mo` lines 127-133. -/
def getFileType (s : VaultState) (caller : Nat) (name : String) :
    Option String × VaultState :=
  let r := getUserFiles s caller
  (match mapGet r.1 name with
   | none => none
   | some f => some f.fileType, r.2)

/-- `deleteFile` of `app.mo` lines 136-139: removes the named record from
the caller's catalog and reports whether a record was removed. -/
def deleteFile (s : VaultState) (caller : Nat) (name : String) :
    Bool × VaultState :=
  let r := getUserFiles s caller
  ((mapGet r.1 name).isSome, mapPut r.2 caller (mapRemove r.1 name))

/-- The record stored in the caller's catalog under `name` after looking it
up from state `s`: the composed catalog lookup used throughout. -/
def lookupRecord (s : VaultState) (user : Nat) (name : String) : Option File :=
  (mapGet s user).bind (fun uf => mapGet uf name)

/-- States reachable from the empty initial state by the actor's public
methods, with arbitrary callers, arguments and times. -/
inductive Reachable : VaultState → Prop where
  | init : Reachable []
  | stepUpload {s} (u : Nat) (n : String) (c : List Nat) (ft : String)
      (t : Int) : Reachable s → Reachable (uploadFile s u n c ft t).2
  | stepCheck {s} (u : Nat) (n : String) :
      Reachable s → Reachable (checkFileExists s u n).2
  | stepGetFiles {s} (u : Nat) : Reachable s → Reachable (getFiles s u).2
  | stepGetFile {s} (u : Nat) (n : String) :
      Reachable s → Reachable (getFile s u n).2
  | stepGetFileType {s} (u : Nat) (n : String) :
      Reachable s → Reachable (getFileType s u n).2
  | stepDelete {s} (u : Nat) (n : String) :
      Reachable s → Reachable (deleteFile s u n).2

section MapLemmas

variable {K V : Type} [DecidableEq K]

theorem mapGet_mapPut_self (m : List (K × V)) (k : K) (v : V) :
    mapGet (mapPut m k v) k = some v := by
  induction m with
  | nil => simp [mapGet, mapPut]
  | cons p rest ih =>
      by_cases h : p.1 = k
      · simp [mapPut, mapGet, h]
      · simp [mapPut, mapGet, h, ih]

theorem mapGet_mapPut_ne (m : List (K × V)) (k k' : K) (v : V)
    (h : k ≠ k') : mapGet (mapPut m k v) k' = mapGet m k' := by
  induction m with
  | nil => simp [mapGet, mapPut, h]
  | cons p rest ih =>
      by_cases hp : p.1 = k
      · simp [mapPut, mapGet, hp, h]
      · simp only [mapPut, hp, if_false, mapGet]
        by_cases hp' : p.1 = k'
        · simp [hp']
        · simp [hp', ih]

theorem mem_mapPut (m : List (K × V)) (k : K) (v : V) (x : K × V)
    (hx : x ∈ mapPut m k v) : x = (k, v) ∨ x ∈ m := by
  induction m with
  | nil => simpa [mapPut] using hx
  | cons p rest ih =>
      by_cases h : p.1 = k
      · simp only [mapPut, h, if_true, List.mem_cons] at hx
        rcases hx with h1 | h2
        · exact Or.inl h1
        · exact Or.inr (List.mem_cons_of_mem _ h2)
      · simp only [mapPut, h, if_false, List.mem_cons] at hx
        rcases hx with h1 | h2
        · exact Or.inr (by simp [h1])
        · rcases ih h2 with h3 | h4
          · exact Or.inl h3
          · exact Or.inr (List.mem_cons_of_mem _ h4)

theorem mem_mapRemove (m : List (K × V)) (k : K) (x : K × V)
    (hx : x ∈ mapRemove m k) : x ∈ m := by
  induction m with
  | nil => simp [mapRemove] at hx
  | cons p rest ih =>
      by_cases h : p.1 = k
      · simp only [mapRemove, h, if_true] at hx
        exact List.mem_cons_of_mem _ hx
      · simp only [mapRemove, h, if_false, List.mem_cons] at hx
        rcases hx with h1 | h2
        · exact List.mem_cons.mpr (Or.inl h1)
        · exact List.mem_cons_of_mem _ (ih h2)

theorem mapGet_eq_some_mem {m : List (K × V)} {k : K} {v : V}
    (h : mapGet m k = some v) : (k, v) ∈ m := by
  induction m with
  | nil => simp [mapGet] at h
  | cons p rest ih =>
      by_cases hp : p.1 = k
      · simp only [mapGet, hp, if_true, Option.some.injEq] at h
        subst h
        exact List.mem_cons.mpr (Or.inl (by rw [← hp]))
      · simp only [mapGet, hp, if_false] at h
        exact List.mem_cons_of_mem _ (ih h)

end MapLemmas

/-- The unconditional form of the upload: build the record and store it
under the name, with no case distinction on prior existence. -/
def uploadFileUncond (s : VaultState) (caller : Nat) (name : String)
    (content : List Nat) (fileType : String) (now : Int) : Unit × VaultState :=
  let r := getUserFiles s caller
  ((), mapPut r.2 caller (mapPut r.1 name
    { name := name, content := content, totalSize := content.length,
      fileType := fileType, hash := hashOf content, timestamp := now }))

theorem uploadFile_eq_put (s : VaultState) (caller : Nat) (name : String)
    (content : List Nat) (fileType : String) (now : Int) :
    uploadFile s caller name content fileType now =
      ((), mapPut (getUserFiles s caller).2 caller
        (mapPut (getUserFiles s caller).1 name
          { name := name, content := content, totalSize := content.length,
            fileType := fileType, hash := hashOf content, timestamp := now })) := by
  cases h : mapGet (getUserFiles s caller).1 name <;> simp [uploadFile, h]

theorem lookupRecord_uploadFile_self (s : VaultState) (u : Nat) (n : String)
    (c : List Nat) (ft : String) (t : Int) :
    lookupRecord (uploadFile s u n c ft t).2 u n =
      some { name := n, content := c, totalSize := c.length, fileType := ft,
             hash := hashOf c, timestamp := t } := by
  rw [uploadFile_eq_put]
  simp [lookupRecord, mapGet_mapPut_self]

theorem lookupRecord_getUserFiles (s : VaultState) (u v : Nat) (m : String) :
    lookupRecord (getUserFiles s u).2 v m = lookupRecord s v m := by
  unfold lookupRecord getUserFiles
  cases h : mapGet s u with
  | some uf => simp
  | none =>
      simp only
      by_cases hv : u = v
      · subst hv
        rw [mapGet_mapPut_self, h]
        simp [mapGet]
      · rw [mapGet_mapPut_ne _ _ _ _ hv]

section KeyLemmas

variable {K V : Type} [DecidableEq K]

theorem mem_keys_mapPut (m : List (K × V)) (k : K) (v : V) (a : K)
    (ha : a ∈ (mapPut m k v).map Prod.fst) : a = k ∨ a ∈ m.map Prod.fst := by
  rcases List.mem_map.mp ha with ⟨p, hp, hpa⟩
  rcases mem_mapPut m k v p hp with h1 | h2
  · subst h1
    simp only [Prod.fst] at hpa
    exact Or.inl hpa.symm
  · exact Or.inr (List.mem_map.mpr ⟨p, h2, hpa⟩)

theorem mem_keys_mapRemove (m : List (K × V)) (k : K) (a : K)
    (ha : a ∈ (mapRemove m k).map Prod.fst) : a ∈ m.map Prod.fst := by
  rcases List.mem_map.mp ha with ⟨p, hp, hpa⟩
  exact List.mem_map.mpr ⟨p, mem_mapRemove m k p hp, hpa⟩

theorem nodupKeys_mapPut (m : List (K × V)) (k : K) (v : V)
    (h : (m.map Prod.fst).Nodup) : ((mapPut m k v).map Prod.fst).Nodup := by
  induction m with
  | nil => simp [mapPut]
  | cons p rest ih =>
      simp only [List.map_cons, List.nodup_cons] at h
      by_cases hp : p.1 = k
      · simp only [mapPut, hp, if_true, List.map_cons, List.nodup_cons]
        exact ⟨hp ▸ h.1, h.2⟩
      · simp only [mapPut, hp, if_false, List.map_cons, List.nodup_cons]
        refine ⟨fun hmem => ?_, ih h.2⟩
        rcases mem_keys_mapPut rest k v p.1 hmem with h1 | h2
        · exact hp h1
        · exact h.1 h2

theorem nodupKeys_mapRemove (m : List (K × V)) (k : K)
    (h : (m.map Prod.fst).Nodup) : ((mapRemove m k).map Prod.fst).Nodup := by
  induction m with
  | nil => simp [mapRemove]
  | cons p rest ih =>
      simp only [List.map_cons, List.nodup_cons] at h
      by_cases hp : p.1 = k
      · simp only [mapRemove, hp, if_true]
        exact h.2
      · simp only [mapRemove, hp, if_false, List.map_cons, List.nodup_cons]
        exact ⟨fun hmem => h.1 (mem_keys_mapRemove rest k p.1 hmem), ih h.2⟩

theorem countKey_eq_zero_of_not_mem (m : List (K × V)) (k : K)
    (h : k ∉ m.map Prod.fst) : countKey m k = 0 := by
  induction m with
  | nil => simp [countKey]
  | cons p rest ih =>
      simp only [List.map_cons, List.mem_cons, not_or] at h
      have hp : (p.1 = k) = False := by
        by_contra hc
        simp only [eq_iff_iff, iff_false] at hc
        exact h.1 (by tauto)
      simp only [countKey, List.filter_cons, decide_eq_true_eq]
      rw [if_neg (by simp [hp])]
      exact ih h.2

theorem countKey_mapPut_of_nodup (m : List (K × V)) (k : K) (v : V)
    (h : (m.map Prod.fst).Nodup) : countKey (mapPut m k v) k = 1 := by
  induction m with
  | nil => simp [mapPut, countKey, List.filter_cons]
  | cons p rest ih =>
      simp only [List.map_cons, List.nodup_cons] at h
      by_cases hp : p.1 = k
      · simp only [mapPut, hp, if_true, countKey, List.filter_cons,
          decide_eq_true_eq, if_pos rfl, List.length_cons]
        have : countKey rest k = 0 :=
          countKey_eq_zero_of_not_mem rest k (hp ▸ h.1)
        simpa [countKey] using this
      · simp only [mapPut, hp, if_false, countKey, List.filter_cons,
          decide_eq_true_eq]
        simpa [countKey] using ih h.2

end KeyLemmas

/-- Well-formedness of the embedded state: unique principals in the outer
map and unique names within each catalog (the invariant the Motoko hash
maps maintain by construction). -/
def WF (s : VaultState) : Prop :=
  (s.map Prod.fst).Nodup ∧ ∀ p ∈ s, ((p.2.map Prod.fst).Nodup)

theorem WF_mapPut (s : VaultState) (u : Nat) (uf : UserFiles) (h : WF s)
    (huf : (uf.map Prod.fst).Nodup) : WF (mapPut s u uf) := by
  refine ⟨nodupKeys_mapPut s u uf h.1, fun p hp => ?_⟩
  rcases mem_mapPut s u uf p hp with h1 | h2
  · subst h1; exact huf
  · exact h.2 p h2

theorem catalog_nodup_getUserFiles (s : VaultState) (u : Nat) (h : WF s) :
    (((getUserFiles s u).1.map Prod.fst).Nodup) := by
  unfold getUserFiles
  cases hg : mapGet s u with
  | none => simp
  | some uf => exact h.2 (u, uf) (mapGet_eq_some_mem hg)

theorem WF_getUserFiles (s : VaultState) (u : Nat) (h : WF s) :
    WF (getUserFiles s u).2 := by
  unfold getUserFiles
  cases hg : mapGet s u with
  | none => exact WF_mapPut s u [] h (by simp)
  | some uf => exact h

theorem reachable_WF (s : VaultState) (h : Reachable s) : WF s := by
  induction h with
  | init => exact ⟨by simp, by simp⟩
  | stepUpload u n c ft t _ ih =>
      rw [uploadFile_eq_put]
      exact WF_mapPut _ u _ (WF_getUserFiles _ u ih)
        (nodupKeys_mapPut _ n _ (catalog_nodup_getUserFiles _ u ih))
  | stepCheck u n _ ih => exact WF_getUserFiles _ u ih
  | stepGetFiles u _ ih => exact WF_getUserFiles _ u ih
  | stepGetFile u n _ ih => exact WF_getUserFiles _ u ih
  | stepGetFileType u n _ ih => exact WF_getUserFiles _ u ih
  | stepDelete u n _ ih =>
      exact WF_mapPut _ u _ (WF_getUserFiles _ u ih)
        (nodupKeys_mapRemove _ n (catalog_nodup_getUserFiles _ u ih))

/-- Derived-size property of a state: every record stored in any catalog
has `totalSize` equal to the byte length of its `content`. -/
def SizeOK (s : VaultState) : Prop :=
  ∀ p ∈ s, ∀ q ∈ p.2, (q.2 : File).totalSize = q.2.content.length

theorem SizeOK_mapPut (s : VaultState) (u : Nat) (uf : UserFiles)
    (h : SizeOK s) (huf : ∀ q ∈ uf, (q.2 : File).totalSize = q.2.content.length) :
    SizeOK (mapPut s u uf) := by
  intro p hp q hq
  rcases mem_mapPut s u uf p hp with h1 | h2
  · subst h1; exact huf q hq
  · exact h p h2 q hq

theorem SizeOK_catalog_getUserFiles (s : VaultState) (u : Nat)
    (h : SizeOK s) :
    ∀ q ∈ (getUserFiles s u).1, (q.2 : File).totalSize = q.2.content.length := by
  unfold getUserFiles
  cases hg : mapGet s u with
  | none => simp
  | some uf => exact h (u, uf) (mapGet_eq_some_mem hg)

theorem SizeOK_getUserFiles (s : VaultState) (u : Nat) (h : SizeOK s) :
    SizeOK (getUserFiles s u).2 := by
  unfold getUserFiles
  cases hg : mapGet s u with
  | none => exact SizeOK_mapPut s u [] h (by simp)
  | some uf => exact h

theorem reachable_SizeOK (s : VaultState) (h : Reachable s) : SizeOK s := by
  induction h with
  | init => intro p hp; simp at hp
  | stepUpload u n c ft t _ ih =>
      rw [uploadFile_eq_put]
      refine SizeOK_mapPut _ u _ (SizeOK_getUserFiles _ u ih) ?_
      intro q hq
      rcases mem_mapPut _ n _ q hq with h1 | h2
      · subst h1; rfl
      · exact SizeOK_catalog_getUserFiles _ u ih q h2
  | stepCheck u n _ ih => exact SizeOK_getUserFiles _ u ih
  | stepGetFiles u _ ih => exact SizeOK_getUserFiles _ u ih
  | stepGetFile u n _ ih => exact SizeOK_getUserFiles _ u ih
  | stepGetFileType u n _ ih => exact SizeOK_getUserFiles _ u ih
  | stepDelete u n _ ih =>
      refine SizeOK_mapPut _ u _ (SizeOK_getUserFiles _ u ih) ?_
      intro q hq
      exact SizeOK_catalog_getUserFiles _ u ih q (mem_mapRemove _ n q hq)

/-- C8: in every reachable state, every record stored in any owner's
catalog has its `totalSize` field equal to the byte length of its
`content` field — no sequence of the actor's operations can produce a
record whose size differs from its content length. -/
theorem record_size_invariant (s : VaultState) (h : Reachable s) (u : Nat)
    (n : String) (r : File) (hr : lookupRecord s u n = some r) :
    r.totalSize = r.content.length := by
  unfold lookupRecord at hr
  cases hg : mapGet s u with
  | none => rw [hg] at hr; simp at hr
  | some uf =>
      rw [hg] at hr
      simp only [Option.some_bind] at hr
      exact reachable_SizeOK s h (u, uf) (mapGet_eq_some_mem hg) (n, r)
        (mapGet_eq_some_mem hr)

/-- Witness for C8 at a concrete reachable state: uploading `[1, 2]` under
name `a` yields a record whose stored size `2` is its content length. -/
theorem record_size_invariant_witness :
    Reachable (uploadFile [] 0 "a" [1, 2] "t" 0).2 ∧
    lookupRecord (uploadFile [] 0 "a" [1, 2] "t" 0).2 0 "a" =
      some { name := "a", content := [1, 2], totalSize := 2, fileType := "t",
             hash := hashOf [1, 2], timestamp := 0 } ∧
    (2 : Nat) = ([1, 2] : List Nat).length := by
  have hr : Reachable (uploadFile [] 0 "a" [1, 2] "t" 0).2 :=
    Reachable.stepUpload 0 "a" [1, 2] "t" 0 Reachable.init
  refine ⟨hr, by decide, ?_⟩
  exact record_size_invariant _ hr 0 "a"
    { name := "a", content := [1, 2], totalSize := 2, fileType := "t",
      hash := hashOf [1, 2], timestamp := 0 } (by decide)

/-- C7: from any reachable state, uploading `c1` then `c2` as the same
owner under the same name `x` leaves exactly one catalog entry named `x`
in that owner's catalog, and its content is `c2` — the later upload
overwrites the named slot. -/
theorem same_name_second_upload_wins (s : VaultState) (h : Reachable s)
    (owner : Nat) (x : String) (c1 c2 : List Nat) (ft1 ft2 : String)
    (t1 t2 : Int) (_hne : c1 ≠ c2) :
    ∃ uf, mapGet (uploadFile (uploadFile s owner x c1 ft1 t1).2
        owner x c2 ft2 t2).2 owner = some uf ∧
      countKey uf x = 1 ∧
      mapGet uf x = some { name := x, content := c2, totalSize := c2.length,
                           fileType := ft2, hash := hashOf c2, timestamp := t2 } := by
  have h1 : Reachable (uploadFile s owner x c1 ft1 t1).2 :=
    Reachable.stepUpload owner x c1 ft1 t1 h
  have hwf : WF (uploadFile s owner x c1 ft1 t1).2 := reachable_WF _ h1
  rw [uploadFile_eq_put (uploadFile s owner x c1 ft1 t1).2 owner x c2 ft2 t2]
  refine ⟨_, mapGet_mapPut_self _ _ _, ?_, mapGet_mapPut_self _ _ _⟩
  exact countKey_mapPut_of_nodup _ _ _
    (catalog_nodup_getUserFiles _ owner hwf)

/-- Witness for C7 at concrete inputs from the initial state: uploading
`[1]` then `[2]` under name `x` leaves one entry whose content is `[2]`. -/
theorem same_name_second_upload_wins_witness :
    Reachable ([] : VaultState) ∧ ([1] : List Nat) ≠ [2] ∧
    ∃ uf, mapGet (uploadFile (uploadFile [] 0 "x" [1] "s" 3).2
        0 "x" [2] "u" 4).2 0 = some uf ∧
      countKey uf "x" = 1 ∧
      mapGet uf "x" = some { name := "x", content := [2], totalSize := 1,
                             fileType := "u", hash := hashOf [2], timestamp := 4 } :=
  ⟨Reachable.init, by decide,
    same_name_second_upload_wins [] Reachable.init 0 "x" [1] [2] "s" "u" 3 4
      (by decide)⟩

/-- C10: in `uploadFile`, both branches of the name-existence check
construct and store an identical record, so `uploadFile` is observably
equivalent, on every caller, name, content, file type, time and state, to
the unconditional put of the newly built record into the caller's catalog:
the resulting state never depends on whether the name already existed. -/
theorem uploadFile_equiv_uncond (s : VaultState) (caller : Nat)
    (name : String) (content : List Nat) (fileType : String) (now : Int) :
    uploadFile s caller name content fileType now =
      uploadFileUncond s caller name content fileType now := by
  rw [uploadFile_eq_put]
  rfl

/-- C4 (code-bug evaluation): the `uploadFile` of `app.mo` is declared
`async ()` and its embedding returns the unit value on every input — it
never returns a result message, contradicting the claim that it returns a
success or duplicate-content text. -/
theorem uploadFile_returns_unit (s : VaultState) (u : Nat) (n : String)
    (c : List Nat) (ft : String) (t : Int) :
    (uploadFile s u n c ft t).1 = () := rfl

/-- C6: the stored content hash is a pure function of the content bytes:
two uploads of equal content, by any callers, under any names and file
types, at any times, from any states, store records whose `hash` fields
are equal (both equal to `hashOf` of the bytes). -/
theorem storedHash_depends_only_on_content (s1 s2 : VaultState)
    (u1 u2 : Nat) (n1 n2 ft1 ft2 : String) (t1 t2 : Int) (c : List Nat) :
    ∃ r1 r2 : File,
      lookupRecord (uploadFile s1 u1 n1 c ft1 t1).2 u1 n1 = some r1 ∧
      lookupRecord (uploadFile s2 u2 n2 c ft2 t2).2 u2 n2 = some r2 ∧
      r1.hash = r2.hash ∧ r1.hash = hashOf c := by
  refine ⟨_, _, lookupRecord_uploadFile_self s1 u1 n1 c ft1 t1,
    lookupRecord_uploadFile_self s2 u2 n2 c ft2 t2, rfl, rfl⟩

/-- C9 counterexample: `checkFileExists` by a caller with no catalog does
not leave the state equal to the state before the call — it lazily inserts
an empty catalog for the caller, so the claim as stated fails already on
the empty state. -/
theorem checkFileExists_mutates_state :
    (checkFileExists [] 0 "x").2 ≠ ([] : VaultState) := by decide

/-- C9 amended: the read operations of `app.mo` (`checkFileExists`,
`getFiles`, `getFile`, `getFileType`) leave every user's name-to-record
lookup unchanged; the only state change they can make is the lazy
insertion of an empty catalog for the caller. (`deleteFile`, which the
original claim's "every operation other than the Upload Workflow" would
also cover, does mutate catalogs and is excluded.) -/
theorem read_ops_preserve_records (s : VaultState) (u v : Nat)
    (n m : String) :
    lookupRecord (checkFileExists s u n).2 v m = lookupRecord s v m ∧
    lookupRecord (getFiles s u).2 v m = lookupRecord s v m ∧
    lookupRecord (getFile s u n).2 v m = lookupRecord s v m ∧
    lookupRecord (getFileType s u n).2 v m = lookupRecord s v m := by
  refine ⟨?_, ?_, ?_, ?_⟩ <;>
    simpa [checkFileExists, getFiles, getFile, getFileType] using
      lookupRecord_getUserFiles s u v m

/-- C5 (code-bug evaluation): the stored content hash is the decimal
rendering of a 32-bit hash value, not a fixed-length lowercase hex string
of a cryptographic digest: its length varies with the input and is far
from the 64 characters of a 256-bit hex digest. -/
theorem storedHash_not_fixed_length_hex :
    hashOf [] = "0" ∧ (hashOf []).length = 1 ∧
    hashOf [1, 1] = "32" ∧ (hashOf [1, 1]).length = 2 := by decide

/-! ## The specified registry operations

The deployed backend's interface (`service.did.d.ts`) declares
`verifyFileByHash`, `findFilesWithSimilarPhash`, `getAlerts` and a
string-returning `uploadFile`, and the frontend calls them, but their
implementation is not among the sources: `app.mo` implements none of
them. The definitions below are therefore modelled from the spec
(sections 3, 4.4, 4.5, 4.6 and 6) and the claims about them are settled
against this model. -/

/-- The `FileRecord` of the spec's data model (section 3), carrying the
owner identity, the content hash and the perceptual fingerprint that the
Global Registry needs. -/
structure SRecord where
  name : String
  content : List Nat
  size : Nat
  mediaType : String
  contentHash : String
  fingerprint : Nat
  createdAt : Int
  owner : Nat
deriving DecidableEq, Repr

/-- The spec's persisted state layout (section 6): the Global Registry
keyed by content hash, the per-identity catalogs with names as keys, and
the per-identity alert outbox. -/
structure SpecState where
  registry : List (String × SRecord)
  catalogs : List (Nat × List (String × SRecord))
  outbox : List (Nat × List String)
deriving DecidableEq, Repr

/-- Lowercase hex digit for a value below 16. -/
def hexDigit (n : Nat) : Char :=
  if n < 10 then Char.ofNat (48 + n) else Char.ofNat (87 + n)

/-- Big-endian rendering of `n` as exactly `w` lowercase hex digits. -/
def hexChars : Nat → Nat → List Char
  | 0, _ => []
  | w + 1, n => hexChars w (n / 16) ++ [hexDigit (n % 16)]

/-- Modelled from the spec: the Content Hasher of section 4.1
(`hash(bytes) -> hex string`). The cryptographic digest implementation is
not among the sources; it is modelled as a deterministic pure 256-bit
digest of the bytes rendered as a fixed-length (64-character) lowercase
hex string, which is all the workflow theorems rely on. -/
def specHash (b : List Nat) : String :=
  ⟨hexChars 64 (b.foldl (fun h x => (h * 131 + x + 1) % (2 ^ 256)) 0)⟩

/-- The success message of the Upload Workflow (the frontend compares the
result against this exact text). -/
def successMsg : String := "File uploaded successfully!"

/-- Modelled from the spec: the descriptive duplicate-content rejection
text of section 4.4 (its exact wording is not fixed by the spec). -/
def duplicateMsg : String :=
  "This file content has already been uploaded by another user."

/-- First upload alert of section 4.4. -/
def alertUploaded : String := "Your file was uploaded successfully."

/-- Second upload alert of section 4.4. -/
def alertDetails : String := "View the details in your catalog."

/-- Modelled from the spec: the Upload Workflow of section 4.4
(`Received -> Hashed -> Checked -> Rejected | Committed`): hash the
content, reject with the duplicate message when the hash is registered to
a different owner (no mutation), otherwise commit — register the record
if the hash is unregistered (first write wins), overwrite the caller's
catalog slot, and append the two alerts. -/
def uploadFileSpec (s : SpecState) (caller : Nat) (name : String)
    (content : List Nat) (mediaType : String) (fp : Nat) (now : Int) :
    String × SpecState :=
  let h := specHash content
  let record : SRecord :=
    { name := name, content := content, size := content.length,
      mediaType := mediaType, contentHash := h, fingerprint := fp,
      createdAt := now, owner := caller }
  match mapGet s.registry h with
  | some r =>
      if r.owner ≠ caller then (duplicateMsg, s)
      else
        (successMsg,
         { s with
           catalogs := mapPut s.catalogs caller
             (mapPut ((mapGet s.catalogs caller).getD []) name record),
           outbox := mapPut s.outbox caller
             (((mapGet s.outbox caller).getD []) ++
               [alertUploaded, alertDetails]) })
  | none =>
      (successMsg,
       { registry := mapPut s.registry h record,
         catalogs := mapPut s.catalogs caller
           (mapPut ((mapGet s.catalogs caller).getD []) name record),
         outbox := mapPut s.outbox caller
           (((mapGet s.outbox caller).getD []) ++
             [alertUploaded, alertDetails]) })

/-- The summary returned by `verifyFileByHash` per the interface
declaration (`service.did.d.ts`): owner, name, media type, fingerprint
and timestamp — no content field. -/
structure VerifySummary where
  owner : Nat
  name : String
  fileType : String
  phash : Nat
  timestamp : Int
deriving DecidableEq, Repr

/-- Modelled from the spec: `verifyFileByHash` (sections 4.5 and 6), a
pure lookup against the Global Registry returning the record summary
without the content, or nothing when the hash is absent. -/
def verifyFileByHash (s : SpecState) (h : String) : Option VerifySummary :=
  (mapGet s.registry h).map (fun r =>
    { owner := r.owner, name := r.name, fileType := r.mediaType,
      phash := r.fingerprint, timestamp := r.createdAt })

/-- Hamming distance between two fingerprints viewed as 64-bit vectors
(section 4.6): the number of bit positions below 64 where they differ. -/
def hammingDistance64 (a b : Nat) : Nat :=
  ((List.range 64).filter (fun i => a.testBit i != b.testBit i)).length

/-- Similarity percentage of section 4.6:
`(bitWidth - hammingDistance) * 100 / bitWidth` with floor division, at
bit width 64. -/
def similarity64 (f g : Nat) : Nat :=
  (64 - hammingDistance64 f g) * 100 / 64

/-- A similarity match as declared in `service.did.d.ts`: owner, content
hash, name, computed similarity, and the record's fingerprint. -/
structure SimilarMatch where
  owner : Nat
  hash : String
  name : String
  similarity : Nat
  phash : Nat
deriving DecidableEq, Repr

/-- The registry records passing the 90-percent similarity threshold. -/
def similarRecords (regs : List SRecord) (f : Nat) : List SRecord :=
  regs.filter (fun r => decide (90 ≤ similarity64 f r.fingerprint))

/-- Modelled from the spec: `findFilesWithSimilarPhash` (sections 4.6 and
6) — a linear scan of the Global Registry keeping every record whose
similarity to the query fingerprint reaches the fixed threshold 90. -/
def findFilesWithSimilarPhash (s : SpecState) (f : Nat) : List SimilarMatch :=
  (similarRecords (s.registry.map Prod.snd) f).map (fun r =>
    { owner := r.owner, hash := r.contentHash, name := r.name,
      similarity := similarity64 f r.fingerprint, phash := r.fingerprint })

theorem hammingDistance64_le (a b : Nat) : hammingDistance64 a b ≤ 64 := by
  simpa [hammingDistance64] using
    List.length_filter_le (fun i => a.testBit i != b.testBit i) (List.range 64)

theorem similarity64_ge_iff (f g : Nat) :
    90 ≤ similarity64 f g ↔ hammingDistance64 f g ≤ 6 := by
  unfold similarity64
  rw [Nat.le_div_iff_mul_le (by norm_num : 0 < 64)]
  have := hammingDistance64_le f g
  omega

/-- C1 (code-bug evaluation): after caller `0` uploads content
`[1, 2, 3]` under name `x`, a second caller `1` uploading the same bytes
under name `y` is not rejected: the call returns unit (no duplicate
message), mutates the state, and leaves caller `1` holding a record of the
same content in its own catalog. -/
theorem duplicate_content_accepted :
    (uploadFile (uploadFile [] 0 "x" [1, 2, 3] "t" 0).2 1 "y" [1, 2, 3] "t" 1).1 = () ∧
    lookupRecord
      (uploadFile (uploadFile [] 0 "x" [1, 2, 3] "t" 0).2 1 "y" [1, 2, 3] "t" 1).2 1 "y" =
      some { name := "y", content := [1, 2, 3], totalSize := 3, fileType := "t",
             hash := hashOf [1, 2, 3], timestamp := 1 } ∧
    (uploadFile (uploadFile [] 0 "x" [1, 2, 3] "t" 0).2 1 "y" [1, 2, 3] "t" 1).2 ≠
      (uploadFile [] 0 "x" [1, 2, 3] "t" 0).2 := by decide

/-- C2: a stored record is included in `findFilesWithSimilarPhash` for a
64-bit query fingerprint exactly when its fingerprint differs from the
query in at most 6 bits — similarity is
`(64 - hammingDistance) * 100 / 64` with floor division and the record
qualifies when it reaches 90, so 6 differing bits give 90 (included) and
7 give 89 (excluded). -/
theorem findFilesWithSimilarPhash_iff_within_six_bits (s : SpecState)
    (f : Nat) (r : SRecord) (hr : r ∈ s.registry.map Prod.snd) :
    ({ owner := r.owner, hash := r.contentHash, name := r.name,
       similarity := similarity64 f r.fingerprint, phash := r.fingerprint }
        : SimilarMatch) ∈ findFilesWithSimilarPhash s f ↔
      hammingDistance64 f r.fingerprint ≤ 6 := by
  constructor
  · intro hm
    unfold findFilesWithSimilarPhash at hm
    rcases List.mem_map.mp hm with ⟨r', hr', heq⟩
    unfold similarRecords at hr'
    have hfp : r'.fingerprint = r.fingerprint := by
      have := congrArg SimilarMatch.phash heq
      simpa using this
    have hq : 90 ≤ similarity64 f r'.fingerprint :=
      of_decide_eq_true (List.mem_filter.mp hr').2
    rw [hfp] at hq
    exact (similarity64_ge_iff f r.fingerprint).mp hq
  · intro hd
    refine List.mem_map.mpr ⟨r, ?_, rfl⟩
    simp only [similarRecords, List.mem_filter, decide_eq_true_eq]
    exact ⟨hr, (similarity64_ge_iff f r.fingerprint).mpr hd⟩

/-- Witness for C2: a registry holding one record with fingerprint `0`,
queried with fingerprint `3` (two differing bits), includes the record. -/
theorem findFilesWithSimilarPhash_witness :
    ({ name := "logo", content := [1], size := 1, mediaType := "image/png",
       contentHash := "h1", fingerprint := 0, createdAt := 0, owner := 7 }
        : SRecord) ∈
      (SpecState.mk [("h1",
        { name := "logo", content := [1], size := 1, mediaType := "image/png",
          contentHash := "h1", fingerprint := 0, createdAt := 0, owner := 7 })]
        [] []).registry.map Prod.snd ∧
    (({ owner := 7, hash := "h1", name := "logo",
        similarity := similarity64 3 0, phash := 0 } : SimilarMatch) ∈
      findFilesWithSimilarPhash
        (SpecState.mk [("h1",
          { name := "logo", content := [1], size := 1,
            mediaType := "image/png", contentHash := "h1", fingerprint := 0,
            createdAt := 0, owner := 7 })] [] []) 3 ↔
      hammingDistance64 3 0 ≤ 6) :=
  ⟨by decide,
   findFilesWithSimilarPhash_iff_within_six_bits
     (SpecState.mk [("h1",
       { name := "logo", content := [1], size := 1, mediaType := "image/png",
         contentHash := "h1", fingerprint := 0, createdAt := 0, owner := 7 })]
       [] []) 3
     { name := "logo", content := [1], size := 1, mediaType := "image/png",
       contentHash := "h1", fingerprint := 0, createdAt := 0, owner := 7 }
     (by decide)⟩

/-- C3: `verifyFileByHash` is a pure lookup: after a successful upload of
fresh content the hash of that content resolves to a summary carrying the
uploader's identity, the name, the media type, the fingerprint and the
timestamp (and no content), while any unregistered hash resolves to
nothing — an empty result, never an error. -/
theorem verifyFileByHash_pure_lookup (s : SpecState) (caller : Nat)
    (n : String) (c : List Nat) (mt : String) (fp : Nat) (t : Int)
    (hfresh : mapGet s.registry (specHash c) = none) :
    (uploadFileSpec s caller n c mt fp t).1 = successMsg ∧
    verifyFileByHash (uploadFileSpec s caller n c mt fp t).2 (specHash c) =
      some { owner := caller, name := n, fileType := mt, phash := fp,
             timestamp := t } ∧
    ∀ h', mapGet s.registry h' = none → verifyFileByHash s h' = none := by
  refine ⟨?_, ?_, ?_⟩
  · simp [uploadFileSpec, hfresh]
  · simp [uploadFileSpec, hfresh, verifyFileByHash, mapGet_mapPut_self]
  · intro h' hh'
    simp [verifyFileByHash, hh']

/-- Witness for C3: uploading `[7]` as caller `3` under name `a` into the
empty state makes its hash verify to caller `3` and name `a`. -/
theorem verifyFileByHash_witness :
    mapGet (SpecState.mk [] [] []).registry (specHash [7]) = none ∧
    ((uploadFileSpec (SpecState.mk [] [] []) 3 "a" [7] "image/png" 5 9).1 =
        successMsg ∧
      verifyFileByHash
        (uploadFileSpec (SpecState.mk [] [] []) 3 "a" [7] "image/png" 5 9).2
        (specHash [7]) =
        some { owner := 3, name := "a", fileType := "image/png", phash := 5,
               timestamp := 9 } ∧
      ∀ h', mapGet (SpecState.mk [] [] []).registry h' = none →
        verifyFileByHash (SpecState.mk [] [] []) h' = none) :=
  ⟨rfl, verifyFileByHash_pure_lookup (SpecState.mk [] [] []) 3 "a" [7]
    "image/png" 5 9 rfl⟩
